import Mathlib

/-!
Verification of the incremental test-suite interpreter
(`robotframework_interpreter/interpreter.py`).

The development shallowly embeds the orchestration code of the interpreter:

* the persistent suite (`Suite`) with its `resource` holding the three
  name-keyed collections (imports, variables, keywords), its test list and
  its `rpa` run-mode flag;
* the item-list utilities `get_items_copy`, `set_items`, `clean_items` and
  `strip_duplicate_items` (Python-dict based dedup);
* the error-capturing sink `ErrorStream` with `write`/`flush`, where the
  `TestSuiteError` raised by `flush` is modelled as the second component of
  the returned pair (the payload of the raised signal);
* `get_rpa_mode` over a parsed model's sections;
* `execute`, with the external collaborators (the `robot.api` parser
  `get_model`, the `ErrorReporter` structural check, the
  `SettingsBuilder`/`SuiteBuilder` transformers and `TestSuite.run`)
  abstracted as oracle fields of an `Env` record.  The builders act on the
  suite's mutable item collections (`SuiteData`); the `rpa` flag is managed
  solely by the interpreter's own code (`suite.rpa = get_rpa_mode(model)`),
  and `TestSuite.run` executes the suite without structurally mutating it,
  reporting a failure (a `TestSuiteError` raised through the error stream)
  as `Except.error`;
* the completion entry point `complete`, with the completion utilities that
  live outside the embedded source file modelled from the spec or taken as
  oracle fields of a `CompletionEnv` record.

Exceptions are modelled with `Except`: a Python function that can raise is
embedded as a function returning the final state together with an
`Except`-style outcome, so that the caller-observable suite state on the
error path is part of the embedding.
-/

namespace RobotInterpreter

/-- An entry of one of the suite's name-keyed collections (an import,
variable, keyword or test).  Only the name takes part in the dedup logic;
`body` stands for the rest of the underlying object. -/
structure Item where
  name : String
  body : String
deriving DecidableEq, Repr

/-- The suite's `resource`, owning the three mutable declaration
collections (`suite.resource.imports/variables/keywords`). -/
structure Resource where
  imports : List Item
  vars : List Item
  keywords : List Item
deriving DecidableEq, Repr

/-- The persistent suite: `TestSuite` as the interpreter uses it — a name,
a source directory, the resource collections, the test list and the `rpa`
run-mode flag (`none` = undetected). -/
structure Suite where
  name : String
  source : String
  resource : Resource
  tests : List Item
  rpa : Option Bool
deriving DecidableEq, Repr

/-- `init_suite`: create a new, empty test suite (fresh `TestSuite` objects
carry empty collections and `rpa = None`). -/
def init_suite (name : String) (source : String) : Suite :=
  { name := name, source := source, resource := ⟨[], [], []⟩,
    tests := [], rpa := none }

/-- `get_items_copy`: `list(items._items)` — a copy of the backing list. -/
def get_items_copy (items : List Item) : List Item := items

/-- `set_items`: `items._items = value` — replace the backing list. -/
def set_items (items : List Item) (value : List Item) : List Item := value

/-- `clean_items`: `items._items = []` — empty the backing list. -/
def clean_items (items : List Item) : List Item := ([] : List Item)

/-- One step of Python's `new_items[item.name] = item` on an insertion
ordered dict represented as a list: re-assigning an existing key keeps its
position and replaces the value, a new key is appended. -/
def dict_insert (d : List Item) (it : Item) : List Item :=
  if d.any (fun x => x.name == it.name) then
    d.map (fun x => if x.name == it.name then it else x)
  else d ++ [it]

/-- `strip_duplicate_items`: build a dict keyed by name over the items and
replace the backing list with its values — first-occurrence key order,
last-occurrence value. -/
def strip_duplicate_items (items : List Item) : List Item :=
  items.foldl dict_insert []

/-- The list of names of an item list. -/
def namesOf (l : List Item) : List String := l.map (fun it => it.name)

/-- The last item carrying a given name, if any (specification-side helper
used to state the last-write-wins property). -/
def lastWithName : List Item → String → Option Item
  | [], _ => none
  | it :: rest, n =>
    match lastWithName rest n with
    | some jt => some jt
    | none => if it.name == n then some it else none

/-- The first item carrying a given name, if any. -/
def find_name (d : List Item) (n : String) : Option Item :=
  d.find? (fun x => x.name == n)

/-- A section of the parsed model; `tasks = none` stands for a section
without a `tasks` attribute (not a task/test-bearing section), `some b`
for a section whose `tasks` attribute is the boolean `b`. -/
structure ModelSection where
  tasks : Option Bool
deriving DecidableEq, Repr

/-- The parsed model returned by `get_model`, as far as the interpreter
inspects it: its list of sections. -/
structure ParsedModel where
  sections : List ModelSection
deriving DecidableEq, Repr

/-- `[s.tasks for s in model.sections if hasattr(s, 'tasks')]`. -/
def sectionTasks (m : ParsedModel) : List Bool :=
  m.sections.filterMap (fun s => s.tasks)

/-- `get_rpa_mode`: `None` for a falsy model, the common `tasks` value when
all task-bearing sections agree (`tasks[0]`, `None` if there are none), and
a raised `DataError` (modelled as `Except.error`) when they disagree. -/
def get_rpa_mode (model : Option ParsedModel) : Except String (Option Bool) :=
  match model with
  | none => Except.ok none
  | some m =>
    let tasks := sectionTasks m
    if tasks.all (fun b => b) || !(tasks.any (fun b => b)) then
      Except.ok tasks.head?
    else
      Except.error "One file cannot have both tests and tasks."

/-- The error-capturing sink: accumulates executor error output in
`message`. -/
structure ErrorStream where
  message : String
deriving DecidableEq, Repr

/-- A fresh `ErrorStream()` — empty buffer. -/
def ErrorStream.init : ErrorStream := { message := "" }

/-- `ErrorStream.flush`: copy the buffer, clear it, and raise
`TestSuiteError` with the copy.  The result is the stream state at the
moment of the raise together with the payload of the raised signal. -/
def ErrorStream.flush (s : ErrorStream) : ErrorStream × String :=
  ({ message := "" }, s.message)

/-- `ErrorStream.write`: append to the buffer and, when `flush` is
requested, flush immediately.  The second component is the payload of the
`TestSuiteError` raised by the flush, or `none` when nothing is raised. -/
def ErrorStream.write (s : ErrorStream) (message : String) (flush : Bool) :
    ErrorStream × Option String :=
  let s2 : ErrorStream := { message := s.message ++ message }
  if flush then
    let fl := s2.flush
    (fl.1, some fl.2)
  else
    (s2, none)

/-- A sequence of non-flushing writes. -/
def writeAll (s : ErrorStream) (msgs : List String) : ErrorStream :=
  msgs.foldl (fun t m => (t.write m false).1) s

/-- Concatenation of a list of strings, in order. -/
def joinAll (msgs : List String) : String :=
  msgs.foldl (fun a b => a ++ b) ""

/-- The opaque result object produced by `TestSuite.run` and passed through
to the caller of `execute`. -/
structure RunResult where
  rc : Nat
deriving DecidableEq, Repr

/-- The exceptions `execute` can let escape: a compile error raised by the
parser or the structural-error check, the re-raised `TestSuiteError` from
execution, and the `DataError` raised by `get_rpa_mode`. -/
inductive ExecError where
  | compileError (msg : String)
  | testSuiteError (msg : String)
  | dataError (msg : String)
deriving DecidableEq, Repr

/-- The part of the suite the external builders and runner work on: the
resource collections and the test list.  The `rpa` flag is not part of it,
because the external transformers build settings/keywords/variables/tests
while `rpa` is assigned only by the interpreter itself on the
successful-return path of `execute`. -/
structure SuiteData where
  resource : Resource
  tests : List Item
deriving DecidableEq, Repr

/-- The mutable data of a suite. -/
def Suite.data (s : Suite) : SuiteData := ⟨s.resource, s.tests⟩

/-- Write back the mutable data into the suite. -/
def Suite.withData (s : Suite) (d : SuiteData) : Suite :=
  { s with resource := d.resource, tests := d.tests }

/-- The external collaborators of `execute`, abstracted as oracles
(closed over the `defaults`, the output streams and the listeners, none of
which feed back into the suite state):

* `getModel` — `robot.api.get_model`; `Except.error` is a parse-time
  failure raised before any suite mutation;
* `errorReporter` — `ErrorReporter(code).visit(model)`, the structural
  error check, again raising before any suite mutation;
* `settingsBuilder`/`suiteBuilder` — the two transformer passes that merge
  the snippet's declarations and tests into the suite's collections;
* `run` — `suite.run(...)`: executes the suite (no structural mutation of
  the suite model) and either returns the pass-through result or raises
  `TestSuiteError` through the error stream, modelled as `Except.error`
  with the payload. -/
structure Env where
  getModel : String → Except String ParsedModel
  errorReporter : String → ParsedModel → Except String Unit
  settingsBuilder : ParsedModel → SuiteData → SuiteData
  suiteBuilder : ParsedModel → SuiteData → SuiteData
  run : SuiteData → Except String RunResult

/-- The suite data after the two builder passes and the duplicate
stripping of variables and keywords — the state `suite.run` is called
on. -/
def built_data (env : Env) (model : ParsedModel) (d : SuiteData) : SuiteData :=
  let d2 := env.suiteBuilder model (env.settingsBuilder model d)
  { d2 with resource :=
      { d2.resource with
        vars := strip_duplicate_items d2.resource.vars,
        keywords := strip_duplicate_items d2.resource.keywords } }

/-- `execute`: snapshot the three declaration collections, parse and check
the snippet (failures escape with the suite untouched), merge it through
the builders, dedup variables/keywords, run the suite; on `TestSuiteError`
restore the snapshot, clear the tests and re-raise; on success clear the
tests, recompute `rpa` from the model (a `DataError` from `get_rpa_mode`
escapes at that point) and return the run result.  The returned pair is
the caller-observable suite state together with the outcome. -/
def execute (env : Env) (code : String) (suite : Suite) :
    Suite × Except ExecError RunResult :=
  let imports := get_items_copy suite.resource.imports
  let vars := get_items_copy suite.resource.vars
  let keywords := get_items_copy suite.resource.keywords
  match env.getModel code with
  | Except.error msg => (suite, Except.error (ExecError.compileError msg))
  | Except.ok model =>
    match env.errorReporter code model with
    | Except.error msg => (suite, Except.error (ExecError.compileError msg))
    | Except.ok _ =>
      let d := built_data env model suite.data
      match env.run d with
      | Except.error msg =>
        let d2 : SuiteData :=
          { resource :=
              { imports := set_items d.resource.imports imports,
                vars := set_items d.resource.vars vars,
                keywords := set_items d.resource.keywords keywords },
            tests := clean_items d.tests }
        (suite.withData d2, Except.error (ExecError.testSuiteError msg))
      | Except.ok result =>
        let d2 : SuiteData := { d with tests := clean_items d.tests }
        match get_rpa_mode (some model) with
        | Except.error msg =>
          (suite.withData d2, Except.error (ExecError.dataError msg))
        | Except.ok rpa =>
          ({ suite.withData d2 with rpa := rpa }, Except.ok result)

/-- A sequence of `execute` calls against the same persistent suite,
threading the caller-observable state (the Python suite object survives a
raised exception, so the state is threaded on every outcome). -/
def executeSeq (env : Env) (codes : List String) (suite : Suite) : Suite :=
  codes.foldl (fun s c => (execute env c s).1) suite

/-- `s.startswith(p)` on code-point lists. -/
def startswith : List Char → List Char → Bool
  | _, [] => true
  | [], _ :: _ => false
  | a :: s, b :: p => a == b && startswith s p

/-- `p in s` (substring containment) on code-point lists. -/
def containsSub : List Char → List Char → Bool
  | [], p => startswith ([] : List Char) p
  | a :: s, p => startswith (a :: s) p || containsSub s p

/-- `s.lower()`, code point by code point. -/
def lowerList (l : List Char) : List Char := l.map Char.toLower

/-- Modelled from the spec: `remove_prefix` (a completion utility outside
the embedded source file) removes a leading phrase from the needle when
present and returns the needle unchanged otherwise. -/
def remove_prefix (s p : List Char) : List Char :=
  if startswith s p then s.drop p.length else s

/-- The phrase `"library "`. -/
def phraseLibrary : List Char := ['l', 'i', 'b', 'r', 'a', 'r', 'y', ' ']

/-- The phrase `"import library "`. -/
def phraseImport : List Char :=
  ['i', 'm', 'p', 'o', 'r', 't', ' ', 'l', 'i', 'b', 'r', 'a', 'r', 'y', ' ']

/-- The phrase `"reload library "`. -/
def phraseReload : List Char :=
  ['r', 'e', 'l', 'o', 'a', 'd', ' ', 'l', 'i', 'b', 'r', 'a', 'r', 'y', ' ']

/-- The phrase `"get library instance "`. -/
def phraseGetInstance : List Char :=
  ['g', 'e', 't', ' ', 'l', 'i', 'b', 'r', 'a', 'r', 'y', ' ',
   'i', 'n', 's', 't', 'a', 'n', 'c', 'e', ' ']

/-- The phrase `"get library instance"` (no trailing space), as used by the
line test of the library-completion trigger. -/
def phraseGetInstanceLine : List Char :=
  ['g', 'e', 't', ' ', 'l', 'i', 'b', 'r', 'a', 'r', 'y', ' ',
   'i', 'n', 's', 't', 'a', 'n', 'c', 'e']

/-- The four library-declaration phrasings, in the order the source strips
them. -/
def phraseList : List (List Char) :=
  [phraseLibrary, phraseImport, phraseReload, phraseGetInstance]

/-- The needle transformation of the library-completion branch: the four
`remove_prefix` calls applied in source order to the (already lowercased)
needle. -/
def strip_library_prefixes (needle : List Char) : List Char :=
  let n1 := remove_prefix needle phraseLibrary
  let n2 := remove_prefix n1 phraseImport
  let n3 := remove_prefix n2 phraseReload
  remove_prefix n3 phraseGetInstance

/-- The stripping rule as the specification words it: exactly the single
longest applicable leading phrase is removed (longest-match-first across
the four phrasings), stated here solely to be compared with the source's
`strip_library_prefixes`. -/
def strip_longest_phrase (n : List Char) : List Char :=
  if startswith n phraseGetInstance then n.drop phraseGetInstance.length
  else if startswith n phraseImport then n.drop phraseImport.length
  else if startswith n phraseReload then n.drop phraseReload.length
  else if startswith n phraseLibrary then n.drop phraseLibrary.length
  else n

/-- Does the separator alternative `\s{2,}` match at the head of the list
(two or more whitespace code points)? -/
def sepMatch2 (l : List Char) : Bool :=
  match l with
  | c1 :: c2 :: _ => c1.isWhitespace && c2.isWhitespace
  | _ => false

/-- The separator alternative `" | "`. -/
def pipeSep : List Char := [' ', '|', ' ']

/-- One pass of `re.split(r"\s{2,}|\t| \| ", line)`: scan left to right,
at each position try the alternatives in order — a greedy run of two or
more whitespace code points, a single tab, a space-pipe-space — and cut a
token at each match.  `fuel` bounds the recursion (structural recursion on
`fuel`; every step consumes at least one code point, so `fuel = l.length`
never runs out).  In the whitespace branch the head is already known to be
whitespace, so greedily dropping the run from the tail equals dropping it
from the whole list. -/
def reSplitGo : Nat → List Char → List Char → List (List Char)
  | _, [], acc => [acc.reverse]
  | 0, _ :: _, acc => [acc.reverse]
  | fuel + 1, c1 :: rest, acc =>
    if sepMatch2 (c1 :: rest) then
      acc.reverse :: reSplitGo fuel (rest.dropWhile Char.isWhitespace) []
    else if c1 == '\t' then
      acc.reverse :: reSplitGo fuel rest []
    else if startswith (c1 :: rest) pipeSep then
      acc.reverse :: reSplitGo fuel (rest.drop 2) []
    else
      reSplitGo fuel rest (c1 :: acc)

/-- `re.split(r"\s{2,}|\t| \| ", l)`. -/
def reSplit (l : List Char) : List (List Char) :=
  reSplitGo l.length l []

/-- `re.split(...)[-1].lstrip()`: the last token of the split of the line
prefix before the cursor, left-stripped. -/
def rawNeedle (line : List Char) (line_cursor : Nat) : List Char :=
  ((reSplit (line.take line_cursor)).getLastD []).dropWhile Char.isWhitespace

/-- Modelled from the spec: the start offset of the line containing the
cursor — the number of code points up to and including the last newline
strictly before the cursor. -/
def line_start (code : List Char) (cpos : Nat) : Nat :=
  ((code.take cpos).reverse.dropWhile (fun c => c ≠ '\n')).length

/-- Modelled from the spec: `line_at_cursor` (a completion utility outside
the embedded source file) returns the current line — the line containing
the cursor, without its newline — and the offset at which it starts. -/
def line_at_cursor (code : List Char) (cpos : Nat) : List Char × Nat :=
  let offset := line_start code cpos
  ((code.drop offset).takeWhile (fun c => c ≠ '\n'), offset)

/-- The needle at the cursor, before any branch-specific adjustment:
the left-stripped trailing token of the current line's prefix before the
cursor. -/
def needle_at (code : List Char) (cpos : Nat) : List Char :=
  rawNeedle (line_at_cursor code cpos).1 (cpos - (line_at_cursor code cpos).2)

/-- `needle and needle[0] in "$@&%"` — the variable-completion trigger. -/
def needleIsVar (needle : List Char) : Bool :=
  match needle with
  | [] => false
  | c :: _ => c == '$' || c == '@' || c == '&' || c == '%'

/-- The library-completion trigger: settings context and one of the four
library-declaration phrasings on the (lowercased) line. -/
def is_library_completion (context : String) (line : List Char) : Bool :=
  context == "__settings__" &&
    (startswith (lowerList line) phraseLibrary ||
     containsSub (lowerList line) phraseImport ||
     containsSub (lowerList line) phraseReload ||
     containsSub (lowerList line) phraseGetInstanceLine)

/-- The keyword-indexing listener handle, as far as `complete` consumes it:
an opaque value handed to the keyword-completion oracle (which stands for
reading its `index` and `keywords` collections). -/
structure KwListener where
  handle : Nat
deriving DecidableEq, Repr

/-- The completion utilities that live outside the embedded source file,
taken as oracles (modelled from the spec):

* `detect_robot_context` — heuristic classification of the cursor position
  into a section tag such as `"__settings__"`;
* `scored_results` — ranked fuzzy scoring of candidates against the needle;
* `complete_libraries` — matching of the stripped needle against known
  library names plus the caller-supplied extra names;
* `get_lunr_completions` — keyword-index matching, filtered by context;
* `variable_regexp_findall` — `VARIABLE_REGEXP.findall(code)`;
* `builtin_variables` — the fixed `BUILTIN_VARIABLES` list. -/
structure CompletionEnv where
  detect_robot_context : List Char → Nat → String
  scored_results : List Char → List (List Char) → List (List Char)
  complete_libraries : List Char → List (List Char) → List (List Char)
  get_lunr_completions : List Char → KwListener → String → List (List Char)
  variable_regexp_findall : List Char → List (List Char)
  builtin_variables : List (List Char)

/-- The branch logic of `complete`: returns the match list, the final
`cursor_end`, and the final needle (after any branch-specific
adjustment). -/
def complete_core (cenv : CompletionEnv) (code : List Char) (cursor_pos : Nat)
    (suite : Suite) (keywords_listener : Option KwListener)
    (extra_libraries : List (List Char)) :
    List (List Char) × Nat × List Char :=
  let context := cenv.detect_robot_context code cursor_pos
  let lp := line_at_cursor code cursor_pos
  let line := lp.1
  let line_cursor := cursor_pos - lp.2
  let needle := rawNeedle line line_cursor
  if needleIsVar needle then
    let potential_vars :=
      ((suite.resource.vars.map (fun v => v.name.toList)) ++
        cenv.variable_regexp_findall code ++ cenv.builtin_variables).dedup
    let matchList := (cenv.scored_results needle potential_vars).filter
      (fun r => containsSub (lowerList r) (lowerList needle))
    if decide (line_cursor < line.length) && line.getD line_cursor ' ' == '}' then
      (matchList, cursor_pos + 1, needle ++ ['}'])
    else
      (matchList, cursor_pos, needle)
  else if is_library_completion context line then
    let needle2 := strip_library_prefixes (lowerList needle)
    (cenv.complete_libraries needle2 extra_libraries, cursor_pos, needle2)
  else
    match keywords_listener with
    | some kl => (cenv.get_lunr_completions needle kl context, cursor_pos, needle)
    | none => (([] : List (List Char)), cursor_pos, needle)

/-- The completion result dictionary. -/
structure CompletionResult where
  matchList : List (List Char)
  cursor_end : Nat
  cursor_start : Nat
  metadata : List (String × String)
  status : String
deriving DecidableEq, Repr

/-- `complete`: run the branch logic and assemble the result dictionary
with `cursor_start = cursor_end - len(needle)`, empty metadata and an
`"ok"` status. -/
def complete (cenv : CompletionEnv) (code : List Char) (cursor_pos : Nat)
    (suite : Suite) (keywords_listener : Option KwListener)
    (extra_libraries : List (List Char)) : CompletionResult :=
  let t := complete_core cenv code cursor_pos suite keywords_listener extra_libraries
  { matchList := t.1, cursor_end := t.2.1, cursor_start := t.2.1 - t.2.2.length,
    metadata := ([] : List (String × String)), status := "ok" }

/-- A concrete one-section model (a test section) for witnesses. -/
def modelW : ParsedModel := ⟨[⟨some false⟩]⟩

/-- A concrete test item for witnesses. -/
def itemT : Item := ⟨"T1", "t"⟩

/-- A concrete variable item for witnesses. -/
def itemV : Item := ⟨"V", "1"⟩

/-- A concrete environment whose run succeeds; the suite builder adds a
variable and a test. -/
def envOk : Env :=
  { getModel := fun _ => Except.ok modelW,
    errorReporter := fun _ _ => Except.ok (),
    settingsBuilder := fun _ d => d,
    suiteBuilder := fun _ d =>
      { d with
        tests := d.tests ++ [itemT],
        resource := { d.resource with vars := d.resource.vars ++ [itemV] } },
    run := fun _ => Except.ok ⟨0⟩ }

/-- A concrete environment whose run raises `TestSuiteError "boom"`. -/
def envFail : Env := { envOk with run := fun _ => Except.error "boom" }

/-- A concrete environment whose parse raises a compile error. -/
def envParseFail : Env :=
  { envOk with getModel := fun _ => Except.error "syntax" }

/-- A concrete empty suite for witnesses. -/
def suiteW : Suite := init_suite "suite" "."

/-- A concrete completion oracle that reports settings context and passes
candidate lists through. -/
def cenvSettings : CompletionEnv :=
  { detect_robot_context := fun _ _ => "__settings__",
    scored_results := fun _ cands => cands,
    complete_libraries := fun _ extras => extras,
    get_lunr_completions := fun _ _ _ => ([] : List (List Char)),
    variable_regexp_findall := fun _ => ([] : List (List Char)),
    builtin_variables := ([] : List (List Char)) }

/-- A concrete completion oracle that reports a non-settings context. -/
def cenvPlain : CompletionEnv :=
  { cenvSettings with detect_robot_context := fun _ _ => "__root__" }

/-- The needle `"library import library x"`, on which the sequential
stripping differs from single-longest-phrase stripping. -/
def cexNeedle : List Char :=
  phraseLibrary ++ phraseImport ++ ['x']

/-- The needle `"import library col"`, on which the two stripping rules
agree. -/
def impLibNeedle : List Char := phraseImport ++ ['c', 'o', 'l']

/-- Concrete code `"${HO}"` for the brace-extension witness. -/
def codeBrace : List Char := ['$', '{', 'H', 'O', '}']

/-- Concrete code `"Log"` for the result-shape witness. -/
def codePlain : List Char := ['L', 'o', 'g']

/-- The five control-flow paths of `execute`, each with the equations that
select it and the exact resulting suite/outcome pair. -/
theorem execute_cases (env : Env) (code : String) (suite : Suite) :
    (∃ msg, env.getModel code = Except.error msg ∧
      execute env code suite = (suite, Except.error (ExecError.compileError msg))) ∨
    (∃ model msg, env.getModel code = Except.ok model ∧
      env.errorReporter code model = Except.error msg ∧
      execute env code suite = (suite, Except.error (ExecError.compileError msg))) ∨
    (∃ model msg, env.getModel code = Except.ok model ∧
      env.errorReporter code model = Except.ok () ∧
      env.run (built_data env model suite.data) = Except.error msg ∧
      execute env code suite =
        ({ suite with tests := ([] : List Item) },
          Except.error (ExecError.testSuiteError msg))) ∨
    (∃ model r msg, env.getModel code = Except.ok model ∧
      env.errorReporter code model = Except.ok () ∧
      env.run (built_data env model suite.data) = Except.ok r ∧
      get_rpa_mode (some model) = Except.error msg ∧
      execute env code suite =
        (suite.withData
            { built_data env model suite.data with tests := ([] : List Item) },
          Except.error (ExecError.dataError msg))) ∨
    (∃ model r rpa, env.getModel code = Except.ok model ∧
      env.errorReporter code model = Except.ok () ∧
      env.run (built_data env model suite.data) = Except.ok r ∧
      get_rpa_mode (some model) = Except.ok rpa ∧
      execute env code suite =
        ({ suite.withData
              { built_data env model suite.data with tests := ([] : List Item) }
            with rpa := rpa },
          Except.ok r)) := by
  simp only [execute]
  split
  · rename_i msg hg
    exact Or.inl ⟨msg, hg, rfl⟩
  · rename_i model hg
    split
    · rename_i msg her
      exact Or.inr (Or.inl ⟨model, msg, hg, her, rfl⟩)
    · rename_i u her
      cases u
      split
      · rename_i msg hr
        exact Or.inr (Or.inr (Or.inl ⟨model, msg, hg, her, hr, rfl⟩))
      · rename_i r hr
        split
        · rename_i msg hrpa
          exact Or.inr (Or.inr (Or.inr (Or.inl
            ⟨model, r, msg, hg, her, hr, hrpa, rfl⟩)))
        · rename_i rpa hrpa
          exact Or.inr (Or.inr (Or.inr (Or.inr
            ⟨model, r, rpa, hg, her, hr, hrpa, rfl⟩)))

/-- Every outcome of `execute` either leaves the test list empty or is a
compile error that leaves the whole suite untouched. -/
theorem execute_tests_cases (env : Env) (code : String) (suite : Suite) :
    ((execute env code suite).1).tests = [] ∨
    ((execute env code suite).1 = suite ∧
      ∃ msg, (execute env code suite).2 = Except.error (ExecError.compileError msg)) := by
  rcases execute_cases env code suite with
    ⟨msg, _, heq⟩ | ⟨model, msg, _, _, heq⟩ | ⟨model, msg, _, _, _, heq⟩ |
    ⟨model, r, msg, _, _, _, _, heq⟩ | ⟨model, r, rpa, _, _, _, _, heq⟩
  · right; rw [heq]; exact ⟨rfl, msg, rfl⟩
  · right; rw [heq]; exact ⟨rfl, msg, rfl⟩
  · left; rw [heq]
  · left; rw [heq]; rfl
  · left; rw [heq]; rfl

/-- A call entered with an empty test list leaves an empty test list, on
every outcome. -/
theorem execute_tests_empty_of_empty (env : Env) (code : String) (suite : Suite)
    (h : suite.tests = []) : ((execute env code suite).1).tests = [] := by
  rcases execute_tests_cases env code suite with h1 | ⟨h1, _⟩
  · exact h1
  · rw [h1]; exact h

/-- Threading a sequence of calls through a suite with an empty test list
keeps the test list empty. -/
theorem executeSeq_tests_empty (env : Env) (codes : List String) (suite : Suite)
    (h : suite.tests = []) : (executeSeq env codes suite).tests = [] := by
  induction codes generalizing suite with
  | nil => exact h
  | cons c rest ih => exact ih _ (execute_tests_empty_of_empty env c suite h)

/-- C1: when `suite.run` raises the `TestSuiteError` signal, `execute`
restores imports, variables and keywords to exactly their entry values,
clears the test list, and re-raises the same error, so the caller never
observes a partially applied suite. -/
theorem execute_rollback_on_test_suite_error (env : Env) (code : String)
    (suite : Suite) (model : ParsedModel) (msg : String)
    (hm : env.getModel code = Except.ok model)
    (he : env.errorReporter code model = Except.ok ())
    (hr : env.run (built_data env model suite.data) = Except.error msg) :
    (execute env code suite).1 = { suite with tests := ([] : List Item) } ∧
    (execute env code suite).2 = Except.error (ExecError.testSuiteError msg) := by
  rcases execute_cases env code suite with
    ⟨msg2, hg, heq⟩ | ⟨model2, msg2, hg, her, heq⟩ | ⟨model2, msg2, hg, her, hr2, heq⟩ |
    ⟨model2, r, msg2, hg, her, hr2, _, heq⟩ | ⟨model2, r, rpa, hg, her, hr2, _, heq⟩
  · rw [hm] at hg; cases hg
  · rw [hm] at hg
    injection hg with hge
    subst hge
    rw [he] at her
    cases her
  · rw [hm] at hg
    injection hg with hge
    subst hge
    rw [hr] at hr2
    injection hr2 with hre
    subst hre
    rw [heq]
    exact ⟨rfl, rfl⟩
  · rw [hm] at hg
    injection hg with hge
    subst hge
    rw [hr] at hr2
    cases hr2
  · rw [hm] at hg
    injection hg with hge
    subst hge
    rw [hr] at hr2
    cases hr2

/-- C1 witness: the rollback theorem applied to a concrete environment
whose run fails. -/
theorem execute_rollback_on_test_suite_error_witness :
    (execute envFail "code" suiteW).1 = { suiteW with tests := ([] : List Item) } ∧
    (execute envFail "code" suiteW).2 =
      Except.error (ExecError.testSuiteError "boom") :=
  execute_rollback_on_test_suite_error envFail "code" suiteW modelW "boom" rfl rfl rfl

/-- C2: a call that returns normally leaves the test list empty, the
`TestSuiteError` path also leaves it empty, a call entered with an empty
test list leaves it empty on every outcome, and hence over any sequence of
calls starting from a fresh suite no test survives into a later call. -/
theorem execute_clears_tests (env : Env) (code : String) (suite : Suite)
    (codes : List String) (name source : String) :
    (∀ r, (execute env code suite).2 = Except.ok r →
      ((execute env code suite).1).tests = []) ∧
    (∀ msg, (execute env code suite).2 = Except.error (ExecError.testSuiteError msg) →
      ((execute env code suite).1).tests = []) ∧
    (suite.tests = [] → ((execute env code suite).1).tests = []) ∧
    (executeSeq env codes (init_suite name source)).tests = [] := by
  refine ⟨?_, ?_, execute_tests_empty_of_empty env code suite,
    executeSeq_tests_empty env codes _ rfl⟩
  · intro r hr
    rcases execute_tests_cases env code suite with h1 | ⟨_, msg, h2⟩
    · exact h1
    · rw [hr] at h2; cases h2
  · intro msg hmsg
    rcases execute_tests_cases env code suite with h1 | ⟨_, msg2, h2⟩
    · exact h1
    · rw [hmsg] at h2
      simp at h2

/-- C2 witness: the clearing theorem applied to a concrete environment and
a concrete successful call. -/
theorem execute_clears_tests_witness :
    ((execute envOk "code" suiteW).1).tests = [] :=
  (execute_clears_tests envOk "code" suiteW ["a", "b"] "n" "s").1 ⟨0⟩ rfl

/-- C6: when parsing or the structural-error check raises a compile error,
`execute` returns with the suite exactly as it was entered and surfaces the
compile error. -/
theorem execute_compile_error_leaves_suite (env : Env) (code : String) (suite : Suite)
    (h : (∃ msg, env.getModel code = Except.error msg) ∨
      (∃ model msg, env.getModel code = Except.ok model ∧
        env.errorReporter code model = Except.error msg)) :
    (execute env code suite).1 = suite ∧
    ∃ msg, (execute env code suite).2 = Except.error (ExecError.compileError msg) := by
  rcases execute_cases env code suite with
    ⟨msg2, hg2, heq⟩ | ⟨model2, msg2, hg2, her2, heq⟩ | ⟨model2, msg2, hg2, her2, _, heq⟩ |
    ⟨model2, r, msg2, hg2, her2, _, _, heq⟩ | ⟨model2, r, rpa, hg2, her2, _, _, heq⟩ <;>
  rcases h with ⟨msg, hg⟩ | ⟨model, msg, hg, he⟩
  · rw [heq]; exact ⟨rfl, msg2, rfl⟩
  · rw [hg] at hg2; cases hg2
  · rw [hg] at hg2; cases hg2
  · rw [heq]; exact ⟨rfl, msg2, rfl⟩
  · rw [hg] at hg2; cases hg2
  · rw [hg2] at hg
    injection hg with hge
    subst hge
    rw [he] at her2
    cases her2
  · rw [hg] at hg2; cases hg2
  · rw [hg2] at hg
    injection hg with hge
    subst hge
    rw [he] at her2
    cases her2
  · rw [hg] at hg2; cases hg2
  · rw [hg2] at hg
    injection hg with hge
    subst hge
    rw [he] at her2
    cases her2

/-- C6 witness: the compile-error theorem applied to a concrete failing
parser. -/
theorem execute_compile_error_leaves_suite_witness :
    (execute envParseFail "code" suiteW).1 = suiteW ∧
    ∃ msg, (execute envParseFail "code" suiteW).2 =
      Except.error (ExecError.compileError msg) :=
  execute_compile_error_leaves_suite envParseFail "code" suiteW
    (Or.inl ⟨"syntax", rfl⟩)

/-- C10: on every raising path of `execute` — compile error, re-raised
`TestSuiteError`, or the run-mode `DataError` — the suite's `rpa` flag
keeps its pre-call value; it is reassigned only on the successful-return
path. -/
theorem execute_error_preserves_rpa (env : Env) (code : String) (suite : Suite)
    (h : ∃ e, (execute env code suite).2 = Except.error e) :
    (execute env code suite).1.rpa = suite.rpa := by
  obtain ⟨e, he⟩ := h
  rcases execute_cases env code suite with
    ⟨msg, _, heq⟩ | ⟨model, msg, _, _, heq⟩ | ⟨model, msg, _, _, _, heq⟩ |
    ⟨model, r, msg, _, _, _, _, heq⟩ | ⟨model, r, rpa, _, _, _, _, heq⟩
  · rw [heq]
  · rw [heq]
  · rw [heq]
  · rw [heq]; rfl
  · rw [heq] at he; cases he

/-- C10 witness: the rpa-preservation theorem applied to a concrete
environment whose run fails. -/
theorem execute_error_preserves_rpa_witness :
    (execute envFail "code" suiteW).1.rpa = suiteW.rpa :=
  execute_error_preserves_rpa envFail "code" suiteW
    ⟨ExecError.testSuiteError "boom", rfl⟩

/-- The head of a nonempty list all of whose elements equal `b` is `b`. -/
theorem head?_eq_of_mem_of_all {l : List Bool} {b : Bool} (hne : b ∈ l)
    (hall : ∀ x ∈ l, x = b) : l.head? = some b := by
  cases l with
  | nil => simp at hne
  | cons x rest =>
    have : x = b := hall x (by simp)
    simp [this]

/-- C3: `get_rpa_mode` raises exactly when the task-bearing sections
disagree; it returns the common kind when they all agree, and `None` when
there are no task-bearing sections or the model itself is falsy. -/
theorem get_rpa_mode_spec (model : Option ParsedModel) :
    ((∃ msg, get_rpa_mode model = Except.error msg) ↔
      ∃ m, model = some m ∧ true ∈ sectionTasks m ∧ false ∈ sectionTasks m) ∧
    (model = none → get_rpa_mode model = Except.ok none) ∧
    (∀ m, model = some m → sectionTasks m = [] →
      get_rpa_mode model = Except.ok none) ∧
    (∀ m b, model = some m → b ∈ sectionTasks m → (∀ x ∈ sectionTasks m, x = b) →
      get_rpa_mode model = Except.ok (some b)) := by
  cases model with
  | none =>
    refine ⟨?_, fun _ => rfl, ?_, ?_⟩
    · constructor
      · intro h
        obtain ⟨msg, hmsg⟩ := h
        cases hmsg
      · intro h
        obtain ⟨m, hm, _⟩ := h
        cases hm
    · intro m hm
      cases hm
    · intro m b hm
      cases hm
  | some m =>
    by_cases hc : ((sectionTasks m).all (fun b => b) ||
        !((sectionTasks m).any (fun b => b))) = true
    · have hok : ∀ msg, ¬get_rpa_mode (some m) = Except.error msg := by
        intro msg hmsg
        simp only [get_rpa_mode] at hmsg
        rw [if_pos hc] at hmsg
        cases hmsg
      refine ⟨?_, ?_, ?_, ?_⟩
      · constructor
        · intro h
          obtain ⟨msg, hmsg⟩ := h
          exact absurd hmsg (hok msg)
        · intro h
          obtain ⟨m2, hm2, ht, hf⟩ := h
          injection hm2 with hm2e
          subst hm2e
          rcases Bool.or_eq_true_iff.mp hc with hall | hany
          · have hfa := List.all_eq_true.mp hall false hf
            simp at hfa
          · rw [Bool.not_eq_true'] at hany
            have hnt : ¬ true ∈ sectionTasks m := by
              intro hmem
              have hta : (sectionTasks m).any (fun b => b) = true :=
                List.any_eq_true.mpr ⟨true, hmem, rfl⟩
              rw [hany] at hta
              cases hta
            exact absurd ht hnt
      · intro hn
        cases hn
      · intro m2 hm2 hempty
        injection hm2 with hm2e
        subst hm2e
        simp only [get_rpa_mode]
        rw [if_pos hc, hempty]
        rfl
      · intro m2 b hm2 hmem hall
        injection hm2 with hm2e
        subst hm2e
        simp only [get_rpa_mode]
        rw [if_pos hc, head?_eq_of_mem_of_all hmem hall]
    · have herr : get_rpa_mode (some m) =
          Except.error "One file cannot have both tests and tasks." := by
        simp only [get_rpa_mode]
        rw [if_neg hc]
      have hc2 : (sectionTasks m).all (fun b => b) = false ∧
          (sectionTasks m).any (fun b => b) = true := by
        constructor
        · by_contra hna
          rw [Bool.not_eq_false] at hna
          exact hc (by rw [hna]; rfl)
        · by_contra hna
          rw [Bool.not_eq_true] at hna
          exact hc (by rw [hna]; simp)
      obtain ⟨hall, hany⟩ := hc2
      refine ⟨?_, ?_, ?_, ?_⟩
      · constructor
        · intro _
          refine ⟨m, rfl, ?_, ?_⟩
          · obtain ⟨x, hx, hxe⟩ := List.any_eq_true.mp hany
            cases x with
            | true => exact hx
            | false => cases hxe
          · by_contra hnf
            apply absurd hall
            rw [Bool.not_eq_false, List.all_eq_true]
            intro x hx
            cases x with
            | true => rfl
            | false => exact absurd hx hnf
        · intro _
          exact ⟨"One file cannot have both tests and tasks.", herr⟩
      · intro hn
        cases hn
      · intro m2 hm2 hempty
        injection hm2 with hm2e
        subst hm2e
        rw [hempty] at hall
        cases hall
      · intro m2 b hm2 hmem hball
        injection hm2 with hm2e
        subst hm2e
        exfalso
        cases b with
        | true =>
          have hat : (sectionTasks m).all (fun b => b) = true :=
            List.all_eq_true.mpr (fun x hx => by rw [hball x hx])
          rw [hall] at hat
          cases hat
        | false =>
          obtain ⟨x, hx, hxe⟩ := List.any_eq_true.mp hany
          have hxb := hball x hx
          rw [hxb] at hxe
          cases hxe

/-- C3 witness: a model with no sections yields `None`. -/
theorem get_rpa_mode_spec_witness :
    get_rpa_mode (some ⟨[]⟩) = Except.ok none :=
  (get_rpa_mode_spec (some ⟨[]⟩)).2.2.1 ⟨[]⟩ rfl rfl

/-- Folding string concatenation over a list distributes over a prepended
string. -/
theorem foldl_append_extract (msgs : List String) (a b : String) :
    msgs.foldl (fun x y => x ++ y) (a ++ b) =
      a ++ msgs.foldl (fun x y => x ++ y) b := by
  induction msgs generalizing b with
  | nil => rfl
  | cons m rest ih =>
    show rest.foldl (fun x y => x ++ y) ((a ++ b) ++ m) = _
    rw [String.append_assoc, ih]
    rfl

/-- `joinAll` peels off the head string. -/
theorem joinAll_cons (m : String) (rest : List String) :
    joinAll (m :: rest) = m ++ joinAll rest := by
  show rest.foldl (fun x y => x ++ y) ("" ++ m) = m ++ joinAll rest
  have h1 : ("" ++ m) = (m ++ "") := by simp
  rw [h1]
  exact foldl_append_extract rest m ""

/-- A run of non-flushing writes appends the written text to the buffer in
order. -/
theorem writeAll_message (s : ErrorStream) (msgs : List String) :
    (writeAll s msgs).message = s.message ++ joinAll msgs := by
  induction msgs generalizing s with
  | nil =>
    show s.message = s.message ++ joinAll []
    simp [joinAll]
  | cons m rest ih =>
    show (writeAll { message := s.message ++ m } rest).message = _
    rw [ih, joinAll_cons, String.append_assoc]

/-- C5: a non-flushing write never raises; after any run of non-flushing
writes into a freshly flushed (empty) buffer, `flush` raises a
`TestSuiteError` whose payload is exactly the concatenation of the text
written since, with the buffer already empty at the moment of the raise;
and a final write with the flush flag raises the concatenation including
that final text. -/
theorem error_stream_spec (s : ErrorStream) (msgs : List String) (final : String)
    (h : s.message = "") :
    (∀ t m, (ErrorStream.write t m false).2 = none) ∧
    (writeAll s msgs).flush = (ErrorStream.init, joinAll msgs) ∧
    (writeAll s msgs).write final true =
      (ErrorStream.init, some (joinAll msgs ++ final)) := by
  refine ⟨fun t m => rfl, ?_, ?_⟩
  · show ((⟨""⟩ : ErrorStream), (writeAll s msgs).message) = _
    rw [writeAll_message, h]
    show ((⟨""⟩ : ErrorStream), "" ++ joinAll msgs) = _
    simp [ErrorStream.init]
  · show ((⟨""⟩ : ErrorStream), some ((writeAll s msgs).message ++ final)) = _
    rw [writeAll_message, h]
    show ((⟨""⟩ : ErrorStream), some (("" ++ joinAll msgs) ++ final)) = _
    simp [ErrorStream.init]

/-- C5 witness: the error-stream theorem applied to two concrete writes
followed by a flush. -/
theorem error_stream_spec_witness :
    (writeAll ErrorStream.init ["first ", "second"]).flush =
      (ErrorStream.init, joinAll ["first ", "second"]) :=
  (error_stream_spec ErrorStream.init ["first ", "second"] "tail" rfl).2.1

/-- Unfolding name lookup over a cons cell. -/
theorem find_name_cons (x : Item) (rest : List Item) (n : String) :
    find_name (x :: rest) n =
      if x.name == n then some x else find_name rest n := by
  rw [find_name]
  by_cases h : (x.name == n) = true
  · rw [if_pos h, List.find?_cons_of_pos]
    exact h
  · rw [if_neg h, List.find?_cons_of_neg]
    · rfl
    · simpa using h

/-- Replacing the item of a matching name finds the replacement when
looking up that name, provided some item of that name is present. -/
theorem find_name_replace_hit (d : List Item) (it : Item)
    (hc : d.any (fun x => x.name == it.name) = true) :
    find_name (d.map (fun x => if x.name == it.name then it else x)) it.name =
      some it := by
  induction d with
  | nil => cases hc
  | cons x rest ih =>
    simp only [List.map_cons]
    by_cases hx : (x.name == it.name) = true
    · rw [if_pos hx, find_name_cons, if_pos (by simp)]
    · rw [if_neg hx, find_name_cons, if_neg hx]
      apply ih
      obtain ⟨y, hy, hpy⟩ := List.any_eq_true.mp hc
      rcases List.mem_cons.mp hy with he | h2
      · subst he; exact absurd hpy hx
      · exact List.any_eq_true.mpr ⟨y, h2, hpy⟩

/-- Replacing the item of one name leaves lookups of any other name
unchanged. -/
theorem find_name_replace_miss (d : List Item) (it : Item) (n : String)
    (hn : ¬(it.name == n) = true) :
    find_name (d.map (fun x => if x.name == it.name then it else x)) n =
      find_name d n := by
  induction d with
  | nil => rfl
  | cons x rest ih =>
    simp only [List.map_cons]
    by_cases hx : (x.name == it.name) = true
    · have hxn : ¬(x.name == n) = true := by
        intro hcon
        apply hn
        rw [← eq_of_beq hx]
        exact hcon
      rw [if_pos hx, find_name_cons, find_name_cons, if_neg hn, if_neg hxn]
      exact ih
    · rw [if_neg hx, find_name_cons, find_name_cons]
      by_cases hxn : (x.name == n) = true
      · rw [if_pos hxn, if_pos hxn]
      · rw [if_neg hxn, if_neg hxn]
        exact ih

/-- Looking up a name in a list carrying no item of a given name yields
`none`. -/
theorem find_name_eq_none_of_not_any (d : List Item) (n : String)
    (hc : ¬d.any (fun x => x.name == n) = true) :
    find_name d n = none := by
  rw [find_name, List.find?_eq_none]
  intro x hx hpx
  exact hc (List.any_eq_true.mpr ⟨x, hx, hpx⟩)

/-- The effect of one dict insertion on name lookup: the inserted name now
maps to the inserted item, all other names are unchanged. -/
theorem find_name_dict_insert (d : List Item) (it : Item) (n : String) :
    find_name (dict_insert d it) n =
      if it.name == n then some it else find_name d n := by
  unfold dict_insert
  by_cases hc : (d.any (fun x => x.name == it.name)) = true
  · rw [if_pos hc]
    by_cases hn : (it.name == n) = true
    · rw [if_pos hn]
      have he : it.name = n := eq_of_beq hn
      rw [← he]
      exact find_name_replace_hit d it hc
    · rw [if_neg hn]
      exact find_name_replace_miss d it n hn
  · rw [if_neg hc]
    by_cases hn : (it.name == n) = true
    · rw [if_pos hn]
      have he : it.name = n := eq_of_beq hn
      subst he
      have h0 : List.find? (fun x => x.name == it.name) d = none := by
        have := find_name_eq_none_of_not_any d it.name hc
        rw [find_name] at this
        exact this
      rw [find_name, List.find?_append, h0]
      simp
    · rw [if_neg hn]
      have h1 : List.find? (fun x => x.name == n) [it] = none := by
        rw [List.find?_eq_none]
        intro x hx hpx
        rcases List.mem_singleton.mp hx with rfl
        exact hn hpx
      rw [find_name, List.find?_append, h1]
      simp [find_name]

/-- Name-preserving replacement leaves the name list unchanged. -/
theorem namesOf_replace (d : List Item) (it : Item) :
    namesOf (d.map (fun x => if x.name == it.name then it else x)) =
      namesOf d := by
  simp only [namesOf, List.map_map]
  apply List.map_eq_map_iff.mpr
  intro x hx
  by_cases hxe : (x.name == it.name) = true
  · simp [Function.comp, if_pos hxe, eq_of_beq hxe]
  · have hne : ¬x.name = it.name := by simpa using hxe
    simp [Function.comp, hne]

/-- One dict insertion preserves name uniqueness. -/
theorem nodup_dict_insert (d : List Item) (it : Item)
    (h : (namesOf d).Nodup) : (namesOf (dict_insert d it)).Nodup := by
  unfold dict_insert
  by_cases hc : (d.any (fun x => x.name == it.name)) = true
  · rw [if_pos hc, namesOf_replace]
    exact h
  · rw [if_neg hc]
    have hnotin : it.name ∉ namesOf d := by
      intro hmem
      apply hc
      obtain ⟨x, hx, hxe⟩ := List.mem_map.mp hmem
      exact List.any_eq_true.mpr ⟨x, hx, by rw [hxe]; simp⟩
    simp only [namesOf, List.map_append]
    simp [List.nodup_append]
    constructor
    · exact h
    · simpa [namesOf] using hnotin

/-- The dict build over an item list: names stay unique and every lookup
returns the last item of that name from the processed items, falling back
to the accumulator. -/
theorem foldl_dict_insert_spec (items : List Item) (d : List Item)
    (h : (namesOf d).Nodup) :
    (namesOf (items.foldl dict_insert d)).Nodup ∧
    (∀ n, find_name (items.foldl dict_insert d) n =
      match lastWithName items n with
      | some it => some it
      | none => find_name d n) := by
  induction items generalizing d with
  | nil => exact ⟨h, fun n => rfl⟩
  | cons it rest ih =>
    obtain ⟨hn, hf⟩ := ih (dict_insert d it) (nodup_dict_insert d it h)
    refine ⟨hn, fun n => ?_⟩
    show find_name (rest.foldl dict_insert (dict_insert d it)) n = _
    rw [hf n, find_name_dict_insert]
    cases hlw : lastWithName rest n with
    | some jt => simp only [lastWithName, hlw]
    | none =>
      by_cases hit : (it.name == n) = true
      · simp only [lastWithName, hlw, if_pos hit]
      · simp only [lastWithName, hlw, if_neg hit]

/-- After `strip_duplicate_items` the names are pairwise distinct. -/
theorem strip_duplicate_nodup (items : List Item) :
    (namesOf (strip_duplicate_items items)).Nodup :=
  (foldl_dict_insert_spec items [] (by simp [namesOf])).1

/-- Lookup in the stripped list is exactly last-with-name in the input. -/
theorem find_name_strip (items : List Item) (n : String) :
    find_name (strip_duplicate_items items) n = lastWithName items n := by
  have h := (foldl_dict_insert_spec items [] (by simp [namesOf])).2 n
  rw [strip_duplicate_items]
  rw [h]
  cases lastWithName items n <;> rfl

/-- In a list with pairwise distinct names, every member is found when its
own name is looked up. -/
theorem find_name_of_mem_nodup (d : List Item) (it : Item)
    (hnd : (namesOf d).Nodup) (hmem : it ∈ d) :
    find_name d it.name = some it := by
  induction d with
  | nil => cases hmem
  | cons x rest ih =>
    have hnd2 := List.nodup_cons.mp
      (by simpa only [namesOf, List.map_cons] using hnd)
    rcases List.mem_cons.mp hmem with he | h2
    · subst he
      rw [find_name_cons, if_pos (by simp)]
    · have hx : ¬(x.name == it.name) = true := by
        intro hbeq
        apply hnd2.1
        rw [eq_of_beq hbeq]
        exact List.mem_map_of_mem _ h2
      rw [find_name_cons, if_neg hx]
      exact ih hnd2.2 h2

/-- A successful last-with-name lookup returns a member carrying that
name. -/
theorem lastWithName_some (l : List Item) (n : String) (jt : Item)
    (h : lastWithName l n = some jt) : jt ∈ l ∧ jt.name = n := by
  induction l with
  | nil => cases h
  | cons it rest ih =>
    simp only [lastWithName] at h
    cases hlw : lastWithName rest n with
    | some kt =>
      simp only [hlw] at h
      injection h with he
      subst he
      obtain ⟨h1, h2⟩ := ih hlw
      exact ⟨List.mem_cons_of_mem _ h1, h2⟩
    | none =>
      simp only [hlw] at h
      by_cases hit : (it.name == n) = true
      · rw [if_pos hit] at h
        injection h with he
        subst he
        exact ⟨List.mem_cons_self it rest, eq_of_beq hit⟩
      · rw [if_neg hit] at h
        cases h

/-- Every member's name has a last carrier. -/
theorem lastWithName_of_mem (l : List Item) (it : Item) (h : it ∈ l) :
    ∃ jt, lastWithName l it.name = some jt := by
  induction l with
  | nil => cases h
  | cons x rest ih =>
    rcases List.mem_cons.mp h with he | h2
    · subst he
      cases hlw : lastWithName rest it.name with
      | some jt => exact ⟨jt, by simp only [lastWithName, hlw]⟩
      | none => exact ⟨it, by simp only [lastWithName, hlw]; simp⟩
    · obtain ⟨jt, hjt⟩ := ih h2
      exact ⟨jt, by simp only [lastWithName, hjt]⟩

/-- On the successful path the final resource is exactly the built (and
deduplicated) resource. -/
theorem execute_ok_resource (env : Env) (code : String) (suite : Suite) (r : RunResult)
    (h : (execute env code suite).2 = Except.ok r) :
    ∃ model, env.getModel code = Except.ok model ∧
      (execute env code suite).1.resource =
        (built_data env model suite.data).resource := by
  rcases execute_cases env code suite with
    ⟨msg, _, heq⟩ | ⟨model, msg, _, _, heq⟩ | ⟨model, msg, _, _, _, heq⟩ |
    ⟨model, r2, msg, _, _, _, _, heq⟩ | ⟨model, r2, rpa, hg, _, _, _, heq⟩
  · rw [heq] at h; cases h
  · rw [heq] at h; cases h
  · rw [heq] at h; cases h
  · rw [heq] at h; cases h
  · rw [heq]
    exact ⟨model, hg, rfl⟩

/-- C4: `strip_duplicate_items` leaves each name exactly once, keeps for
each name the last item carrying it in input order, drops no name, and
consequently a successful `execute` leaves the suite's variables and
keywords free of duplicate names. -/
theorem strip_duplicate_items_spec (items : List Item) (env : Env) (code : String)
    (suite : Suite) :
    (namesOf (strip_duplicate_items items)).Nodup ∧
    (∀ it ∈ strip_duplicate_items items, lastWithName items it.name = some it) ∧
    (∀ it ∈ items, ∃ jt ∈ strip_duplicate_items items, jt.name = it.name) ∧
    (∀ r, (execute env code suite).2 = Except.ok r →
      (namesOf ((execute env code suite).1).resource.vars).Nodup ∧
      (namesOf ((execute env code suite).1).resource.keywords).Nodup) := by
  refine ⟨strip_duplicate_nodup items, ?_, ?_, ?_⟩
  · intro it hit
    rw [← find_name_strip]
    exact find_name_of_mem_nodup _ it (strip_duplicate_nodup items) hit
  · intro it hit
    obtain ⟨jt, hjt⟩ := lastWithName_of_mem items it hit
    have hfind : find_name (strip_duplicate_items items) it.name = some jt := by
      rw [find_name_strip]
      exact hjt
    refine ⟨jt, ?_, ?_⟩
    · exact List.mem_of_find?_eq_some hfind
    · have := List.find?_some hfind
      exact eq_of_beq this
  · intro r hok
    obtain ⟨model, _, hres⟩ := execute_ok_resource env code suite r hok
    rw [hres]
    constructor
    · exact strip_duplicate_nodup _
    · exact strip_duplicate_nodup _

/-- C4 witness: the dedup theorem applied to a concrete list with a
repeated name. -/
theorem strip_duplicate_items_spec_witness :
    lastWithName [⟨"a", "1"⟩, ⟨"a", "2"⟩] (Item.mk "a" "2").name =
      some ⟨"a", "2"⟩ :=
  (strip_duplicate_items_spec [⟨"a", "1"⟩, ⟨"a", "2"⟩] envOk "code" suiteW).2.1
    ⟨"a", "2"⟩ (by decide)

/-- Dropping a whitespace run never lengthens a list. -/
theorem length_dropWhile_le (p : Char → Bool) (l : List Char) :
    (l.dropWhile p).length ≤ l.length := by
  induction l with
  | nil => simp
  | cons c rest ih =>
    rw [List.dropWhile_cons]
    split
    · exact Nat.le_succ_of_le ih
    · exact Nat.le_refl _

/-- The splitter never returns an empty token list. -/
theorem reSplitGo_ne_nil (fuel : Nat) (l acc : List Char) :
    reSplitGo fuel l acc ≠ [] := by
  induction fuel generalizing l acc with
  | zero => cases l <;> simp [reSplitGo]
  | succ f ih =>
    cases l with
    | nil => simp [reSplitGo]
    | cons c1 rest =>
      simp only [reSplitGo]
      split
      · simp
      · split
        · simp
        · split
          · simp
          · exact ih rest (c1 :: acc)

/-- Every token the splitter produces is no longer than the unprocessed
input plus the pending accumulator. -/
theorem reSplitGo_token_length (fuel : Nat) (l acc tok : List Char)
    (h : tok ∈ reSplitGo fuel l acc) : tok.length ≤ acc.length + l.length := by
  induction fuel generalizing l acc tok with
  | zero =>
    cases l with
    | nil =>
      simp only [reSplitGo, List.mem_singleton] at h
      subst h
      simp
    | cons c rest =>
      simp only [reSplitGo, List.mem_singleton] at h
      subst h
      simp
  | succ f ih =>
    cases l with
    | nil =>
      simp only [reSplitGo, List.mem_singleton] at h
      subst h
      simp
    | cons c1 rest =>
      simp only [reSplitGo] at h
      split at h
      · rcases List.mem_cons.mp h with he | h2
        · subst he; simp
        · have h3 := ih _ _ _ h2
          have h4 := length_dropWhile_le Char.isWhitespace rest
          simp only [List.length_nil, List.length_cons] at h3 ⊢
          omega
      · split at h
        · rcases List.mem_cons.mp h with he | h2
          · subst he; simp
          · have h3 := ih _ _ _ h2
            simp only [List.length_nil, List.length_cons] at h3 ⊢
            omega
        · split at h
          · rcases List.mem_cons.mp h with he | h2
            · subst he; simp
            · have h3 := ih _ _ _ h2
              have h4 := List.length_drop 2 rest
              simp only [List.length_nil, List.length_cons] at h3 ⊢
              omega
          · have h3 := ih _ _ _ h
            simp only [List.length_cons] at h3 ⊢
            omega

/-- The last element (with default) of a nonempty list is a member. -/
theorem getLastD_mem {α : Type} (xs : List α) (d : α) (h : xs ≠ []) :
    xs.getLastD d ∈ xs := by
  induction xs generalizing d with
  | nil => exact absurd rfl h
  | cons x rest ih =>
    rw [List.getLastD_cons]
    cases rest with
    | nil => simp
    | cons y t => exact List.mem_cons_of_mem _ (ih x (by simp))

/-- The needle extracted from a line prefix is no longer than the cursor's
offset into the line. -/
theorem rawNeedle_length_le (line : List Char) (lc : Nat) :
    (rawNeedle line lc).length ≤ lc := by
  unfold rawNeedle
  have h1 : ((reSplit (line.take lc)).getLastD []) ∈ reSplit (line.take lc) :=
    getLastD_mem _ _ (reSplitGo_ne_nil _ _ _)
  have h2 := reSplitGo_token_length (line.take lc).length (line.take lc) []
    ((reSplit (line.take lc)).getLastD []) h1
  have h3 : (line.take lc).length ≤ lc := List.length_take_le lc line
  have h4 := length_dropWhile_le Char.isWhitespace
    ((reSplit (line.take lc)).getLastD [])
  simp only [List.length_nil] at h2
  omega

/-- The start of the cursor's line never exceeds the cursor. -/
theorem line_start_le (code : List Char) (cpos : Nat) :
    line_start code cpos ≤ cpos := by
  unfold line_start
  have h1 := length_dropWhile_le (fun c => c ≠ '\n') (code.take cpos).reverse
  have h2 : (code.take cpos).reverse.length = (code.take cpos).length := by simp
  have h3 : (code.take cpos).length ≤ cpos := List.length_take_le cpos code
  omega

/-- The raw needle at the cursor is no longer than the cursor offset. -/
theorem needle_at_length_le (code : List Char) (cpos : Nat) :
    (needle_at code cpos).length ≤ cpos := by
  unfold needle_at
  have h1 := rawNeedle_length_le (line_at_cursor code cpos).1
    (cpos - (line_at_cursor code cpos).2)
  omega

/-- Removing a leading phrase never lengthens the needle. -/
theorem remove_prefix_length_le (s p : List Char) :
    ( remove_prefix s p).length ≤ s.length := by
  unfold remove_prefix
  split
  · rw [List.length_drop]
    omega
  · exact Nat.le_refl _

/-- The sequential phrase stripping never lengthens the needle. -/
theorem strip_library_prefixes_length_le (n : List Char) :
    (strip_library_prefixes n).length ≤ n.length := by
  simp only [strip_library_prefixes]
  have h1 := remove_prefix_length_le n phraseLibrary
  have h2 := remove_prefix_length_le ( remove_prefix n phraseLibrary) phraseImport
  have h3 := remove_prefix_length_le
    ( remove_prefix ( remove_prefix n phraseLibrary) phraseImport) phraseReload
  have h4 := remove_prefix_length_le
    ( remove_prefix ( remove_prefix ( remove_prefix n phraseLibrary) phraseImport)
      phraseReload) phraseGetInstance
  omega

set_option maxHeartbeats 1000000 in
/-- The final needle of the branch logic is no longer than the final
cursor position. -/
theorem complete_core_needle_le (cenv : CompletionEnv) (code : List Char)
    (cpos : Nat) (suite : Suite) (kl : Option KwListener)
    (extras : List (List Char)) :
    (complete_core cenv code cpos suite kl extras).2.2.length ≤
      (complete_core cenv code cpos suite kl extras).2.1 := by
  have hbase : (rawNeedle (line_at_cursor code cpos).1
      (cpos - (line_at_cursor code cpos).2)).length ≤ cpos :=
    needle_at_length_le code cpos
  simp only [complete_core]
  split
  · split
    · simp only [List.length_append, List.length_singleton]
      omega
    · exact hbase
  · split
    · have h1 := strip_library_prefixes_length_le
        (lowerList (rawNeedle (line_at_cursor code cpos).1
          (cpos - (line_at_cursor code cpos).2)))
      have h2 : (lowerList (rawNeedle (line_at_cursor code cpos).1
          (cpos - (line_at_cursor code cpos).2))).length =
          (rawNeedle (line_at_cursor code cpos).1
            (cpos - (line_at_cursor code cpos).2)).length := by
        simp [lowerList]
      have h5 : (lowerList (rawNeedle (line_at_cursor code cpos).1
          (cpos - (line_at_cursor code cpos).2))).length ≤ cpos := by
        rw [h2]
        exact hbase
      exact le_trans h1 h5
    · split
      · exact hbase
      · exact hbase

/-- C7: `complete` always returns an `"ok"` status, empty metadata and a
`cursor_start` exactly the length of the final needle before `cursor_end`;
when no completion branch applies the match list is empty.  The embedding
is a total function, mirroring that completion never raises. -/
theorem complete_result_shape (cenv : CompletionEnv) (code : List Char)
    (cpos : Nat) (suite : Suite) (kl : Option KwListener)
    (extras : List (List Char)) :
    (complete cenv code cpos suite kl extras).status = "ok" ∧
    (complete cenv code cpos suite kl extras).metadata = [] ∧
    (complete cenv code cpos suite kl extras).cursor_start +
        (complete_core cenv code cpos suite kl extras).2.2.length =
      (complete cenv code cpos suite kl extras).cursor_end ∧
    ((needleIsVar (needle_at code cpos) = false ∧
      is_library_completion (cenv.detect_robot_context code cpos)
        (line_at_cursor code cpos).1 = false ∧
      kl = none) →
      (complete cenv code cpos suite kl extras).matchList = []) := by
  refine ⟨rfl, rfl, ?_, ?_⟩
  · show (complete_core cenv code cpos suite kl extras).2.1 -
        (complete_core cenv code cpos suite kl extras).2.2.length +
        (complete_core cenv code cpos suite kl extras).2.2.length =
      (complete_core cenv code cpos suite kl extras).2.1
    exact Nat.sub_add_cancel (complete_core_needle_le cenv code cpos suite kl extras)
  · intro h
    obtain ⟨h1, h2, h3⟩ := h
    subst h3
    have h1b : needleIsVar (rawNeedle (line_at_cursor code cpos).1
        (cpos - (line_at_cursor code cpos).2)) = false := h1
    have h2b : is_library_completion (cenv.detect_robot_context code cpos)
        (line_at_cursor code cpos).1 = false := h2
    show (complete_core cenv code cpos suite none extras).1 = []
    simp only [complete_core]
    rw [if_neg (by simp [h1b]), if_neg (by simp [h2b])]

/-- C7 witness: the result-shape theorem applied to a concrete completion
request with no applicable branch. -/
theorem complete_result_shape_witness :
    (complete cenvPlain codePlain 3 suiteW none []).matchList = [] :=
  (complete_result_shape cenvPlain codePlain 3 suiteW none []).2.2.2
    ⟨by decide, by decide, rfl⟩

/-- C9: in variable completion, when the character in the line just after
the cursor is a closing brace, the returned `cursor_end` is the cursor plus
one and the needle is extended by the brace — leaving `cursor_start`
exactly where it would have been — and otherwise `cursor_end` is the
cursor position itself. -/
theorem complete_brace_extension (cenv : CompletionEnv) (code : List Char)
    (cpos : Nat) (suite : Suite) (kl : Option KwListener)
    (extras : List (List Char))
    (hvar : needleIsVar (needle_at code cpos) = true) :
    ((cpos - (line_at_cursor code cpos).2 < (line_at_cursor code cpos).1.length ∧
      (line_at_cursor code cpos).1.getD (cpos - (line_at_cursor code cpos).2) ' ' = '}') →
      (complete cenv code cpos suite kl extras).cursor_end = cpos + 1 ∧
      (complete_core cenv code cpos suite kl extras).2.2 =
        needle_at code cpos ++ ['}'] ∧
      (complete cenv code cpos suite kl extras).cursor_start =
        cpos - (needle_at code cpos).length) ∧
    (¬(cpos - (line_at_cursor code cpos).2 < (line_at_cursor code cpos).1.length ∧
      (line_at_cursor code cpos).1.getD (cpos - (line_at_cursor code cpos).2) ' ' = '}') →
      (complete cenv code cpos suite kl extras).cursor_end = cpos) := by
  have hvar2 : needleIsVar (rawNeedle (line_at_cursor code cpos).1
      (cpos - (line_at_cursor code cpos).2)) = true := hvar
  constructor
  · intro h
    obtain ⟨hlt, hbr⟩ := h
    have hcond : (decide (cpos - (line_at_cursor code cpos).2 <
        (line_at_cursor code cpos).1.length) &&
        ((line_at_cursor code cpos).1.getD
          (cpos - (line_at_cursor code cpos).2) ' ' == '}')) = true := by
      simp only [Bool.and_eq_true, decide_eq_true_eq, beq_iff_eq]
      exact ⟨hlt, hbr⟩
    have hcore : (complete_core cenv code cpos suite kl extras).2 =
        (cpos + 1, needle_at code cpos ++ ['}']) := by
      show (complete_core cenv code cpos suite kl extras).2 =
        (cpos + 1, rawNeedle (line_at_cursor code cpos).1
          (cpos - (line_at_cursor code cpos).2) ++ ['}'])
      simp only [complete_core]
      rw [if_pos hvar2, if_pos hcond]
    refine ⟨?_, ?_, ?_⟩
    · show (complete_core cenv code cpos suite kl extras).2.1 = cpos + 1
      rw [hcore]
    · show (complete_core cenv code cpos suite kl extras).2.2 =
        needle_at code cpos ++ ['}']
      rw [hcore]
    · show (complete_core cenv code cpos suite kl extras).2.1 -
        (complete_core cenv code cpos suite kl extras).2.2.length =
        cpos - (needle_at code cpos).length
      rw [hcore]
      simp only [List.length_append, List.length_singleton]
      exact Nat.succ_sub_succ cpos (needle_at code cpos).length
  · intro h
    have hcond : ¬(decide (cpos - (line_at_cursor code cpos).2 <
        (line_at_cursor code cpos).1.length) &&
        ((line_at_cursor code cpos).1.getD
          (cpos - (line_at_cursor code cpos).2) ' ' == '}')) = true := by
      simp only [Bool.and_eq_true, decide_eq_true_eq, beq_iff_eq]
      exact h
    show (complete_core cenv code cpos suite kl extras).2.1 = cpos
    simp only [complete_core]
    rw [if_pos hvar2, if_neg hcond]

/-- C9 witness: the brace-extension theorem applied to `"${HO}"` with the
cursor just before the closing brace. -/
theorem complete_brace_extension_witness :
    (complete cenvPlain codeBrace 4 suiteW none []).cursor_end = 4 + 1 :=
  ((complete_brace_extension cenvPlain codeBrace 4 suiteW none []
    (by decide)).1 ⟨by decide, by decide⟩).1

/-- A list starting with a cons phrase is itself a cons of the phrase's
head. -/
theorem startswith_cons_ex (s : List Char) (a : Char) (p : List Char)
    (h : startswith s (a :: p) = true) :
    ∃ t, s = a :: t ∧ startswith t p = true := by
  cases s with
  | nil => cases h
  | cons c t =>
    simp only [startswith, Bool.and_eq_true, beq_iff_eq] at h
    exact ⟨t, by rw [h.1], h.2⟩

/-- A list headed by one character does not start with a phrase headed by a
different character. -/
theorem startswith_head_ne (t : List Char) (a b : Char) (q : List Char)
    (hne : (a == b) = false) : startswith (a :: t) (b :: q) = false := by
  simp only [startswith, hne, Bool.false_and]

/-- C8 counterexample: on `"library import library x"` the source's
sequential stripping removes two phrases, so its result differs from
removing exactly the single longest applicable leading phrase as the claim
states. -/
theorem strip_library_prefixes_not_longest :
    strip_library_prefixes cexNeedle ≠ strip_longest_phrase cexNeedle := by
  decide

/-- At most one of the four phrasings can lead a given needle: their first
characters differ pairwise. -/
theorem phrase_at_most_one (n : List Char) (p q : List Char)
    (hp : p ∈ phraseList) (hq : q ∈ phraseList)
    (hsp : startswith n p = true) (hsq : startswith n q = true) : p = q := by
  simp only [phraseList, List.mem_cons, List.not_mem_nil, or_false] at hp hq
  simp only [phraseLibrary, phraseImport, phraseReload, phraseGetInstance]
    at hp hq hsp hsq ⊢
  rcases hp with rfl | rfl | rfl | rfl <;> rcases hq with rfl | rfl | rfl | rfl <;>
    first
    | rfl
    | (exfalso
       obtain ⟨t1, ht1, h1⟩ := startswith_cons_ex _ _ _ hsp
       obtain ⟨t2, ht2, h2⟩ := startswith_cons_ex _ _ _ hsq
       rw [ht1] at ht2
       injection ht2 with hh ht
       exact absurd hh (by decide))

/-- C8 amended: the four phrasings are stripped sequentially in source
order; at most one of them applies to the needle itself (their first
characters differ), and whenever no phrasing applies to the once-stripped
remainder as well, the sequential stripping coincides with removing
exactly the single longest applicable leading phrase. -/
theorem strip_library_prefixes_amended (n : List Char)
    (h : ∀ p ∈ phraseList, startswith (strip_longest_phrase n) p = false) :
    (∀ p ∈ phraseList, ∀ q ∈ phraseList,
      startswith n p = true → startswith n q = true → p = q) ∧
    strip_library_prefixes n = strip_longest_phrase n := by
  refine ⟨fun p hp q hq hsp hsq => phrase_at_most_one n p q hp hq hsp hsq, ?_⟩
  have hL2 := h phraseLibrary (by simp [phraseList])
  have hI2 := h phraseImport (by simp [phraseList])
  have hR2 := h phraseReload (by simp [phraseList])
  have hG2 := h phraseGetInstance (by simp [phraseList])
  by_cases hL : startswith n phraseLibrary = true
  · obtain ⟨t, ht, _⟩ := startswith_cons_ex n 'l' _
      (by simpa only [phraseLibrary] using hL)
    have hI : ¬startswith n phraseImport = true := by
      rw [ht]
      simp only [phraseImport]
      rw [startswith_head_ne t 'l' 'i' _ (by decide)]
      simp
    have hR : ¬startswith n phraseReload = true := by
      rw [ht]
      simp only [phraseReload]
      rw [startswith_head_ne t 'l' 'r' _ (by decide)]
      simp
    have hG : ¬startswith n phraseGetInstance = true := by
      rw [ht]
      simp only [phraseGetInstance]
      rw [startswith_head_ne t 'l' 'g' _ (by decide)]
      simp
    have hlong : strip_longest_phrase n = n.drop phraseLibrary.length := by
      simp only [strip_longest_phrase]
      rw [if_neg hG, if_neg hI, if_neg hR, if_pos hL]
    rw [hlong] at hL2 hI2 hR2 hG2
    have hI2n : ¬startswith (List.drop phraseLibrary.length n)
        phraseImport = true := by
      rw [hI2]
      simp
    have hR2n : ¬startswith (List.drop phraseLibrary.length n)
        phraseReload = true := by
      rw [hR2]
      simp
    have hG2n : ¬startswith (List.drop phraseLibrary.length n)
        phraseGetInstance = true := by
      rw [hG2]
      simp
    simp only [strip_library_prefixes, remove_prefix]
    rw [if_pos hL, if_neg hI2n, if_neg hR2n, if_neg hG2n, hlong]
  · by_cases hI : startswith n phraseImport = true
    · obtain ⟨t, ht, _⟩ := startswith_cons_ex n 'i' _
        (by simpa only [phraseImport] using hI)
      have hG : ¬startswith n phraseGetInstance = true := by
        rw [ht]
        simp only [phraseGetInstance]
        rw [startswith_head_ne t 'i' 'g' _ (by decide)]
        simp
      have hlong : strip_longest_phrase n = n.drop phraseImport.length := by
        simp only [strip_longest_phrase]
        rw [if_neg hG, if_pos hI]
      rw [hlong] at hL2 hI2 hR2 hG2
      have hR2n : ¬startswith (List.drop phraseImport.length n)
          phraseReload = true := by
        rw [hR2]
        simp
      have hG2n : ¬startswith (List.drop phraseImport.length n)
          phraseGetInstance = true := by
        rw [hG2]
        simp
      simp only [strip_library_prefixes, remove_prefix]
      rw [if_neg hL, if_pos hI, if_neg hR2n, if_neg hG2n, hlong]
    · by_cases hR : startswith n phraseReload = true
      · obtain ⟨t, ht, _⟩ := startswith_cons_ex n 'r' _
          (by simpa only [phraseReload] using hR)
        have hG : ¬startswith n phraseGetInstance = true := by
          rw [ht]
          simp only [phraseGetInstance]
          rw [startswith_head_ne t 'r' 'g' _ (by decide)]
          simp
        have hlong : strip_longest_phrase n = n.drop phraseReload.length := by
          simp only [strip_longest_phrase]
          rw [if_neg hG, if_neg hI, if_pos hR]
        rw [hlong] at hL2 hI2 hR2 hG2
        have hG2n : ¬startswith (List.drop phraseReload.length n)
            phraseGetInstance = true := by
          rw [hG2]
          simp
        simp only [strip_library_prefixes, remove_prefix]
        rw [if_neg hL, if_neg hI, if_pos hR, if_neg hG2n, hlong]
      · by_cases hG : startswith n phraseGetInstance = true
        · have hlong : strip_longest_phrase n =
              n.drop phraseGetInstance.length := by
            simp only [strip_longest_phrase]
            rw [if_pos hG]
          simp only [strip_library_prefixes, remove_prefix]
          rw [if_neg hL, if_neg hI, if_neg hR, if_pos hG, hlong]
        · have hlong : strip_longest_phrase n = n := by
            simp only [strip_longest_phrase]
            rw [if_neg hG, if_neg hI, if_neg hR, if_neg hL]
          simp only [strip_library_prefixes, remove_prefix]
          rw [if_neg hL, if_neg hI, if_neg hR, if_neg hG, hlong]

/-- C8 witness: on `"import library col"` exactly one phrasing applies and
the sequential stripping equals longest-phrase stripping. -/
theorem strip_library_prefixes_amended_witness :
    strip_library_prefixes impLibNeedle = strip_longest_phrase impLibNeedle :=
  (strip_library_prefixes_amended impLibNeedle (by decide)).2

end RobotInterpreter
